import Mathlib

/-!
Shallow embedding of the remote-keyless-system firmware core
(BlowFish32 cipher, CRC-8 codec, key-schedule generator, receiver
rolling-code protocol, transmitter session), translated from the C
sources:

* `src/mikroc/crypto/blowfish.h`   — cipher engine
* `src/mikroc/crypto/crc.h`        — CRC-8 checksum
* `src/mikroc/key_gen/key_gen.c`   — seed ingestion and key schedule
* `src/mikroc/receiver/receiver.c` — receiver state machine
* transmitter firmware (`main`, `transmit_code`, `valid_message`, …)

Machine integers are modelled as `Nat` with explicit masking / `% 2^w`
at the points where the C types force wraparound.  C arrays are Lean
lists indexed with `List.getD` (the C code never indexes out of range,
so the default is never seen on the paths modelled here).
-/

namespace RKS

/-! ## Cipher Engine (`src/mikroc/crypto/blowfish.h`) -/

/-- `BIT16_LO(x) = ((x) >> 0) & 0xFFFF`. -/
def BIT16_LO (x : Nat) : Nat := (x >>> 0) &&& 0xFFFF

/-- `BIT16_HI(x) = ((x) >> 16) & 0xFFFF`. -/
def BIT16_HI (x : Nat) : Nat := (x >>> 16) &&& 0xFFFF

/-- The loaded BlowFish32 subkeys (`_key_p`, `_key_s1` … `_key_s4` after
`blowfish_setkeys`): one 18-word P array and four 16-word S arrays of
16-bit words. -/
structure BFKey where
  p : List Nat
  s1 : List Nat
  s2 : List Nat
  s3 : List Nat
  s4 : List Nat
deriving DecidableEq

/-- Well-formedness of a loaded key: the array lengths declared in the C
sources, and every word fits in `uint16_t`. -/
def KeyWF (k : BFKey) : Prop :=
  k.p.length = 18 ∧ k.s1.length = 16 ∧ k.s2.length = 16 ∧
  k.s3.length = 16 ∧ k.s4.length = 16 ∧
  (∀ x ∈ k.p, x < 65536) ∧ (∀ x ∈ k.s1, x < 65536) ∧ (∀ x ∈ k.s2, x < 65536) ∧
  (∀ x ∈ k.s3, x < 65536) ∧ (∀ x ∈ k.s4, x < 65536)

instance (k : BFKey) : Decidable (KeyWF k) := by
  unfold KeyWF; infer_instance

/-- `blowfish_feistel` from `blowfish.h`: split the 16-bit input into four
nibbles and combine S-box lookups with wraparound 16-bit addition and XOR.
The C intermediate sum is computed at integer width and the result is
truncated to `uint16_t` on return; `% 65536` models that truncation (the
XOR only touches the low 16 bits, so this matches both the 16-bit-`int`
MikroC target and the 32-bit-`int` host). -/
def blowfish_feistel (k : BFKey) (data : Nat) : Nat :=
  let d1 := (data >>> 0) &&& 0x0F
  let d2 := (data >>> 4) &&& 0x0F
  let d3 := (data >>> 8) &&& 0x0F
  let d4 := (data >>> 12) &&& 0x0F
  (((k.s1.getD d1 0 + k.s2.getD d2 0) ^^^ k.s3.getD d3 0) + k.s4.getD d4 0) % 65536

/-- One iteration of the encryption loop of `blowfish_encrypt`
(`data_hi ^= _key_p[idx]; data_lo ^= blowfish_feistel(data_hi); SWAP`),
on the pair `(data_hi, data_lo)`. -/
def encRound (k : BFKey) (i : Nat) (hl : Nat × Nat) : Nat × Nat :=
  (hl.2 ^^^ blowfish_feistel k (hl.1 ^^^ k.p.getD i 0), hl.1 ^^^ k.p.getD i 0)

/-- One iteration of the decryption loop of `blowfish_decrypt`
(`SWAP; data_lo ^= blowfish_feistel(data_hi); data_hi ^= _key_p[idx]`). -/
def decRound (k : BFKey) (i : Nat) (hl : Nat × Nat) : Nat × Nat :=
  (hl.2 ^^^ k.p.getD i 0, hl.1 ^^^ blowfish_feistel k hl.2)

/-- `blowfish_encrypt` from `blowfish.h`: 16 Feistel rounds over the two
16-bit halves, a final swap, XOR with `P[16]`/`P[17]`, reassembled as
`(hi << 16) | lo`. -/
def blowfish_encrypt (k : BFKey) (data : Nat) : Nat :=
  let hl := (List.range 16).foldl (fun hl i => encRound k i hl) (BIT16_HI data, BIT16_LO data)
  let hi := hl.2 ^^^ k.p.getD 16 0
  let lo := hl.1 ^^^ k.p.getD 17 0
  (hi <<< 16) ||| lo

/-- `blowfish_decrypt` from `blowfish.h`: undo the two final XORs and the
swap, then run the rounds with `idx = 15 .. 0`. -/
def blowfish_decrypt (k : BFKey) (data : Nat) : Nat :=
  let hi0 := BIT16_HI data ^^^ k.p.getD 16 0
  let lo0 := BIT16_LO data ^^^ k.p.getD 17 0
  let hl := ((List.range 16).reverse).foldl (fun hl i => decRound k i hl) (lo0, hi0)
  (hl.1 <<< 16) ||| hl.2

/-! ## Frame Codec checksum (`src/mikroc/crypto/crc.h`) -/

/-- One bit step of `crc_ccitt`'s inner loop on the pair `(crc, _dat)`;
`crc` and `_dat` are `uint8_t`, so the left shifts wrap at 8 bits. -/
def crc_bit (cd : Nat × Nat) : Nat × Nat :=
  let c0 := cd.1
  let d0 := cd.2
  let crc1 := (c0 <<< 1) % 256
  let crc2 := if d0 &&& 0x80 ≠ 0 then crc1 + 1 else crc1
  let crc3 := if c0 &&& 0x80 ≠ 0 then crc2 ^^^ 0x8D else crc2
  (crc3, (d0 <<< 1) % 256)

/-- Process one data byte of `crc_ccitt` (8 bit steps, MSB first). -/
def crc_byte (crc b : Nat) : Nat :=
  ((List.range 8).foldl (fun cd _ => crc_bit cd) (crc, b)).1

/-- The 8 zero-augmentation steps at the end of `crc_ccitt`. -/
def crc_aug (crc : Nat) : Nat :=
  (List.range 8).foldl
    (fun c _ =>
      let c1 := (c <<< 1) % 256
      if c &&& 0x80 ≠ 0 then c1 ^^^ 0x8D else c1) crc

/-- `crc_ccitt(data, num)` from `crc.h`, polynomial `0x8D`, initial
register `0xFF`; the argument list holds the `num` bytes processed. -/
def crc_ccitt (data : List Nat) : Nat :=
  crc_aug (data.foldl crc_byte 0xFF)

/-! ## Key Schedule Generator (`src/mikroc/key_gen/key_gen.c`)

`key_gen.c` carries its own private copies of `blowfish_encrypt` and
`blowfish_feistel`, operating directly on the global arrays
`arr_p`, `arr_s1` … `arr_s4`.  Those globals are modelled as a state
record threaded explicitly. -/

namespace KeyGen

/-- The mutable globals of `key_gen.c`: the five subkey arrays. -/
structure KGState where
  arr_p : List Nat
  arr_s1 : List Nat
  arr_s2 : List Nat
  arr_s3 : List Nat
  arr_s4 : List Nat
deriving DecidableEq

/-- `blowfish_feistel` as defined privately in `key_gen.c` (reads the
global S arrays). -/
def blowfish_feistel (st : KGState) (data : Nat) : Nat :=
  let d1 := (data >>> 0) &&& 0x0F
  let d2 := (data >>> 4) &&& 0x0F
  let d3 := (data >>> 8) &&& 0x0F
  let d4 := (data >>> 12) &&& 0x0F
  (((st.arr_s1.getD d1 0 + st.arr_s2.getD d2 0) ^^^ st.arr_s3.getD d3 0) + st.arr_s4.getD d4 0) % 65536

/-- One iteration of the encryption loop of `key_gen.c`'s private
`blowfish_encrypt`. -/
def encRound (st : KGState) (i : Nat) (hl : Nat × Nat) : Nat × Nat :=
  (hl.2 ^^^ blowfish_feistel st (hl.1 ^^^ st.arr_p.getD i 0), hl.1 ^^^ st.arr_p.getD i 0)

/-- `blowfish_encrypt` as defined privately in `key_gen.c` (reads the
global `arr_p`/`arr_s*` arrays). -/
def blowfish_encrypt (st : KGState) (data : Nat) : Nat :=
  let hl := (List.range 16).foldl (fun hl i => encRound st i hl) (BIT16_HI data, BIT16_LO data)
  let hi := hl.2 ^^^ st.arr_p.getD 16 0
  let lo := hl.1 ^^^ st.arr_p.getD 17 0
  (hi <<< 16) ||| lo

/-- Load the generator's five global arrays into the shared cipher
library, i.e. the effect of
`blowfish_setkeys(arr_p, arr_s1, arr_s2, arr_s3, arr_s4)`. -/
def toKey (st : KGState) : BFKey :=
  ⟨st.arr_p, st.arr_s1, st.arr_s2, st.arr_s3, st.arr_s4⟩

/-- One iteration of the P-filling loop of `blowfish_keygen`
(`block = blowfish_encrypt(block); arr_p[idx] = HI; arr_p[idx+1] = LO`),
on the accumulator `(state, block, number of encryptions so far)`. -/
def stepP (acc : KGState × Nat × Nat) (idx : Nat) : KGState × Nat × Nat :=
  let block := blowfish_encrypt acc.1 acc.2.1
  ({ acc.1 with arr_p := (acc.1.arr_p.set idx (BIT16_HI block)).set (idx + 1) (BIT16_LO block) },
   block, acc.2.2 + 1)

/-- The `switch (sidx)` of `blowfish_keygen` choosing which S array the
inner loop writes through `arr_sx`. -/
def setArrS (st : KGState) (sidx : Nat) (f : List Nat → List Nat) : KGState :=
  match sidx with
  | 0 => { st with arr_s1 := f st.arr_s1 }
  | 1 => { st with arr_s2 := f st.arr_s2 }
  | 2 => { st with arr_s3 := f st.arr_s3 }
  | _ => { st with arr_s4 := f st.arr_s4 }

/-- One iteration of the S-filling inner loop of `blowfish_keygen`. -/
def stepS (sidx : Nat) (acc : KGState × Nat × Nat) (idx : Nat) : KGState × Nat × Nat :=
  let block := blowfish_encrypt acc.1 acc.2.1
  (setArrS acc.1 sidx
     (fun a => (a.set idx (BIT16_HI block)).set (idx + 1) (BIT16_LO block)),
   block, acc.2.2 + 1)

/-- `blowfish_keygen` from `key_gen.c`: XOR the packed seed words
(`arr_key`) into the 18-word P table, then repeatedly encrypt a feedback
block starting at `0x00000000`, splitting each ciphertext into its high
and low 16-bit halves to fill P (indices `0,2,…,16`) and then
S1 … S4 (indices `0,2,…,14` each).  In addition to the final state the
model returns the number of `blowfish_encrypt` invocations performed. -/
def blowfish_keygen (key : List Nat) (st0 : KGState) : KGState × Nat :=
  let st1 : KGState :=
    { st0 with arr_p := (List.range 18).map (fun i => st0.arr_p.getD i 0 ^^^ key.getD i 0) }
  let acc1 := ((List.range 9).map (fun i => 2 * i)).foldl stepP (st1, 0, 0)
  let acc2 := (List.range 4).foldl
    (fun acc sidx => ((List.range 8).map (fun i => 2 * i)).foldl (stepS sidx) acc) acc1
  (acc2.1, acc2.2.2)

/-- The schedule derivation as the specification describes it: a single
pass of feedback encryptions, the `j`-th ciphertext providing the 16-bit
words at positions `2j` and `2j + 1` (high half first) of the
concatenation P ‖ S1 ‖ S2 ‖ S3 ‖ S4.  `schedWrite` stores one such word
pair. -/
def schedWrite (st : KGState) (j hi lo : Nat) : KGState :=
  if j < 9 then { st with arr_p := (st.arr_p.set (2 * j) hi).set (2 * j + 1) lo }
  else if j < 17 then { st with arr_s1 := (st.arr_s1.set (2 * j - 18) hi).set (2 * j - 17) lo }
  else if j < 25 then { st with arr_s2 := (st.arr_s2.set (2 * j - 34) hi).set (2 * j - 33) lo }
  else if j < 33 then { st with arr_s3 := (st.arr_s3.set (2 * j - 50) hi).set (2 * j - 49) lo }
  else { st with arr_s4 := (st.arr_s4.set (2 * j - 66) hi).set (2 * j - 65) lo }

/-- One step of the uniform derivation: encrypt the feedback block with
the in-progress tables and store its two 16-bit halves at the next two
subkey-word positions. -/
def schedStep (acc : KGState × Nat) (j : Nat) : KGState × Nat :=
  let block := blowfish_encrypt acc.1 acc.2
  (schedWrite acc.1 j (BIT16_HI block) (BIT16_LO block), block)

/-- Uniform description of the whole derivation: seed-XOR into P, then
41 feedback encryptions filling the 82 subkey words in order. -/
def keygenSchedule (key : List Nat) (st0 : KGState) : KGState :=
  let st1 : KGState :=
    { st0 with arr_p := (List.range 18).map (fun i => st0.arr_p.getD i 0 ^^^ key.getD i 0) }
  ((List.range 41).foldl schedStep (st1, 0)).1

/-! ### Seed ingestion (`get_input` in `key_gen.c`)

`arr_key` is `uint16_t[18]`, so `klen = sizeof(arr_key) = 36` bytes; the
parse loop runs over `MAX(clen, klen*2) = max clen 72` hex digits, the
digit at index `idx` being XORed into byte `(idx/2) % 36` shifted by 4
for even `idx` and by 0 for odd `idx`, with the seed string re-read
cyclically through `idx % clen`.  The seed is modelled as the list of
its hex digit values. -/

/-- One iteration of the parse loop of `get_input`. -/
def get_input_step (digits : List Nat) (clen : Nat) (buf : List Nat) (idx : Nat) : List Nat :=
  let shift := if idx % 2 = 1 then 0 else 4
  let pos := (idx / 2) % 36
  buf.set pos (buf.getD pos 0 ^^^ (digits.getD (idx % clen) 0 <<< shift))

/-- The packed key-material buffer (`_arr_key`, 36 bytes zeroed by
`memset`) produced by `get_input` from a seed of hex digits. -/
def get_input (digits : List Nat) : List Nat :=
  (List.range (max digits.length 72)).foldl
    (get_input_step digits digits.length) (List.replicate 36 0)

/-- The contribution the parse loop XORs in at digit index `idx`. -/
def contrib (digits : List Nat) (clen idx : Nat) : Nat :=
  digits.getD (idx % clen) 0 <<< (if idx % 2 = 1 then 0 else 4)

end KeyGen

/-- XOR of a list of values (used to state where each seed digit lands). -/
def xorSum (l : List Nat) : Nat := l.foldr (· ^^^ ·) 0

/-! ## Concrete subkey tables (the π-digit constants of `key_gen.c`) -/

/-- `arr_p` … `arr_s4` of `key_gen.c` as initialised (hex digits of π),
loaded as a cipher key. -/
def key_pi : BFKey :=
  ⟨[0x243F, 0x6A88, 0x85A3, 0x08D3, 0x1319, 0x8A2E, 0x0370, 0x7344, 0xA409,
    0x3822, 0x299F, 0x31D0, 0x082E, 0xFA98, 0xEC4E, 0x6C89, 0x4528, 0x21E6],
   [0x38D0, 0x1377, 0xBE54, 0x66CF, 0x34E9, 0x0C6C, 0xC0AC, 0x29B7,
    0xC97C, 0x50DD, 0x3F84, 0xD5B5, 0xB547, 0x0917, 0x9216, 0xD5D9],
   [0x8979, 0xD131, 0x0BA6, 0x98DF, 0xB5AC, 0x2FFD, 0x72DB, 0xD01A,
    0xDFB7, 0xB8E1, 0xAFED, 0x6A26, 0x7E96, 0xBA7C, 0x9045, 0xF12C],
   [0x7F99, 0x24A1, 0x9947, 0xB391, 0x6CF7, 0x0801, 0xF2E2, 0x858E,
    0xFC16, 0x6369, 0x20D8, 0x7157, 0x4E69, 0xA458, 0xFEA3, 0xF493],
   [0x3D7E, 0x0D95, 0x748F, 0x728E, 0xB658, 0x718B, 0xCD58, 0x8215,
    0x4AEE, 0x7B54, 0xA41D, 0xC25A, 0x59B5, 0x9C30, 0xD539, 0x2AF2]⟩

/-- The same tables as the generator's initial global state. -/
def st_pi : KeyGen.KGState :=
  ⟨key_pi.p, key_pi.s1, key_pi.s2, key_pi.s3, key_pi.s4⟩

/-! ## Channel Store and Rolling-Code Protocol
(`src/mikroc/receiver/receiver.c`)

The EEPROM layout (`ADDRESS_CODE = 0`, `ADDRESS_STATE = 64`) stores one
32-bit rolling code per channel followed by one enrollment flag byte per
channel; it is modelled as two 16-entry lists. -/

/-- `ROLLING_WINDOW = 0x0400`. -/
def ROLLING_WINDOW : Nat := 0x0400

/-- The per-channel persistent state held in EEPROM: `codes` are the
rolling codes (4 bytes each, from `ADDRESS_CODE`), `states` the
enrollment flag bytes (from `ADDRESS_STATE`). -/
structure Store where
  codes : List Nat
  states : List Nat
deriving DecidableEq

/-- `read_channel_state(chan)`. -/
def read_channel_state (s : Store) (chan : Nat) : Nat := s.states.getD chan 0

/-- `read_channel_code(chan)`. -/
def read_channel_code (s : Store) (chan : Nat) : Nat := s.codes.getD chan 0

/-- `write_channel_state(chan, state)`. -/
def write_channel_state (s : Store) (chan state : Nat) : Store :=
  { s with states := s.states.set chan state }

/-- `write_channel_code(chan, code)`. -/
def write_channel_code (s : Store) (chan code : Nat) : Store :=
  { s with codes := s.codes.set chan code }

/-- `process_load` from `receiver.c` (the Normal command): reject unless
the stored flag byte is `0xFF` and the `uint32_t` difference
`code - read_channel_code(chan)` is below `ROLLING_WINDOW`; on
acceptance store `code + 1` (as `uint32_t`) and unlock the bolt.  The
model returns the updated store and whether the bolt-unlock path was
taken.  `code` and the stored codes are `uint32_t`, so the C difference
equals `(code + 2^32 - last) % 2^32` for in-range values. -/
def process_load (s : Store) (code chan : Nat) : Store × Bool :=
  let invalid : Bool :=
    (read_channel_state s chan != 0xFF)
      || decide ((code + 2 ^ 32 - read_channel_code s chan) % 2 ^ 32 ≥ ROLLING_WINDOW)
  if invalid then (s, false)
  else (write_channel_code s chan ((code + 1) % 2 ^ 32), true)

/-- `process_store` from `receiver.c` (the StoreChannel command):
unconditionally store `code + 1` and set the flag byte to `0xFF`. -/
def process_store (s : Store) (code chan : Nat) : Store :=
  write_channel_state (write_channel_code s chan ((code + 1) % 2 ^ 32)) chan 0xFF

/-- The abort countdown of `process_reset`: six one-second samples of the
command pins, stopping early once `PORTD.F0 == 0 && PORTD.F1 == 0`
(both pins released).  `pins k = true` means the release condition holds
at the `k`-th sample. -/
def abort_countdown (pins : Nat → Bool) : Bool :=
  (List.range 6).foldl (fun ab k => ab || pins k) false

/-- `process_reset` from `receiver.c`: run the abort countdown, then —
exactly as the C source is written — perform the `0x00` channel-state
writes only when `abort` ended up true (a negative `chan` meaning all 16
channels), and otherwise leave the store untouched. -/
def process_reset (chan : Int) (pins : Nat → Bool) (s : Store) : Store :=
  let abort := abort_countdown pins
  if abort then
    if chan ≥ 0 then write_channel_state s chan.toNat 0x00
    else (List.range 16).foldl (fun acc idx => write_channel_state acc idx 0x00) s
  else s

/-- A sample store: all 16 channels enrolled with rolling code 0. -/
def demoStore : Store :=
  ⟨List.replicate 16 0, List.replicate 16 0xFF⟩

/-! ## Receiver frame decoding (`receive_code` / `process_code`) -/

/-- The checksum acceptance test of `receive_code`:
`crc_ccitt(data, 5) == data[5]`. -/
def receiver_checksum_ok (data : List Nat) : Bool :=
  crc_ccitt (data.take 5) == data.getD 5 0

/-- The channel extraction of `process_code`: `data[4] % MAX_CHANS`. -/
def receiver_chan (data : List Nat) : Nat := data.getD 4 0 % 16

/-! ## Transmitter Session (transmitter firmware)

`transmit_code` builds the message in `uint8_t data[6]`.  The writes the
C source actually performs are `data[5] = CHAN_NUM`, the four bytes of
the encrypted code at `data[0..3]`, and `data[6] = crc_ccitt(data, 5)` —
one byte past the declared buffer.  `data[4]` is never written and its
indeterminate initial content (parameter `g` below) enters both the CRC
computation and the transmitted frame.  The memory is modelled as seven
cells (the six buffer bytes plus the adjacent byte the out-of-bounds
store hits) together with a log of `(index, value)` writes. -/

/-- `FRAME_MARK = 0b10010110`. -/
def FRAME_MARK : Nat := 0x96

/-- `CHAN_NUM = 0x00` (the transmitter's flash-time channel). -/
def CHAN_NUM : Nat := 0x00

/-- Byte `i` of a `uint32_t` in the PIC's little-endian memory order. -/
def u32_byte (x i : Nat) : Nat := (x >>> (8 * i)) &&& 0xFF

/-- The transmitter's message memory: seven cells (indices 0–5 are the
declared `data[6]`, index 6 the adjacent out-of-bounds byte) and the
ordered write log. -/
structure TxBuf where
  cells : List Nat
  writes : List (Nat × Nat)
deriving DecidableEq

/-- One store into the message memory, recorded in the write log. -/
def txWrite (b : TxBuf) (i v : Nat) : TxBuf :=
  ⟨b.cells.set i v, b.writes ++ [(i, v)]⟩

/-- `valid_message(data, 6)`: none of the six buffer bytes equals the
frame marker. -/
def valid_message (b : TxBuf) : Bool :=
  (List.range 6).all (fun i => b.cells.getD i 0 != FRAME_MARK)

/-- `*((uint32_t*)data) = block`: the four-byte store at `data[0..3]`. -/
def write_block (b : TxBuf) (block : Nat) : TxBuf :=
  (List.range 4).foldl (fun acc i => txWrite acc i (u32_byte block i)) b

/-- The do-while assembly loop of `transmit_code`: increment the rolling
code, encrypt it into `data[0..3]`, store the CRC over `data[0..4]` at
`data[6]`, and repeat while `valid_message` fails.  Recursion is bounded
by explicit fuel; `none` models the loop not having terminated within
the given fuel. -/
def assemble_loop (k : BFKey) : Nat → Nat → TxBuf → Option (Nat × TxBuf)
  | 0, _, _ => none
  | fuel + 1, code, b =>
    let code2 := (code + 1) % 2 ^ 32
    let b1 := write_block b (blowfish_encrypt k code2)
    let b2 := txWrite b1 6 (crc_ccitt (b1.cells.take 5))
    if valid_message b2 then some (code2, b2) else assemble_loop k fuel code2 b2

/-- Message assembly of `transmit_code`: cell 4 starts with the garbage
byte `g`, `data[5] = CHAN_NUM` is stored once, then the do-while loop
runs. -/
def transmit_assemble (k : BFKey) (code g fuel : Nat) : Option (Nat × TxBuf) :=
  assemble_loop k fuel code (txWrite ⟨[0, 0, 0, 0, g, 0, 0], []⟩ 5 CHAN_NUM)

/-- Externally visible effects of the transmitter: radio byte sends and
EEPROM byte writes. -/
inductive Effect where
  | send (b : Nat)
  | eepromWrite (addr val : Nat)
deriving DecidableEq

/-- Whether an effect is a radio send. -/
def Effect.isSend : Effect → Bool
  | send _ => true
  | _ => false

/-- Whether an effect is an EEPROM write. -/
def Effect.isWrite : Effect → Bool
  | eepromWrite _ _ => true
  | _ => false

/-- One frame of the transmission burst: the frame marker followed by
`data[0..5]`. -/
def frame_sends (cells : List Nat) : List Effect :=
  Effect.send FRAME_MARK :: (List.range 6).map (fun i => Effect.send (cells.getD i 0))

/-- The `for (; cnt > 0; cnt--)` burst loop of `transmit_code`. -/
def burst (cells : List Nat) : Nat → List Effect
  | 0 => []
  | n + 1 => frame_sends cells ++ burst cells n

/-- `write_code(code)`: the four EEPROM byte writes persisting the
rolling code. -/
def write_code_trace (code : Nat) : List Effect :=
  (List.range 4).map (fun i => Effect.eepromWrite i (u32_byte code i))

/-- One trigger event of the transmitter's `main` loop:
`code = transmit_code(code, 16); write_code(code);` — assemble the
message, emit the 16-frame burst, and then persist the returned code.
Returns the ordered effect trace and the new rolling code (or `none` if
the assembly loop exhausts its fuel, in which case the firmware would
still be spinning). -/
def trigger_event (k : BFKey) (code g fuel : Nat) : Option (List Effect × Nat) :=
  match transmit_assemble k code g fuel with
  | none => none
  | some (code2, b) => some (burst b.cells 16 ++ write_code_trace code2, code2)

/-- Claim C2's ordering property: every EEPROM write in the trace occurs
before every radio send. -/
def WritesPrecedeSends (t : List Effect) : Prop :=
  ∀ i j, i < t.length → j < t.length →
    (t.getD i (Effect.send 0)).isWrite = true →
    (t.getD j (Effect.send 0)).isSend = true → i < j

/-- Decidable version of `WritesPrecedeSends`, used to evaluate the
claimed ordering on a concrete trace. -/
def writesPrecedeSendsB (t : List Effect) : Bool :=
  (List.range t.length).all fun i => (List.range t.length).all fun j =>
    !((t.getD i (Effect.send 0)).isWrite && (t.getD j (Effect.send 0)).isSend)
      || decide (i < j)

/-- The ordering the code actually implements: every radio send occurs
before every EEPROM write. -/
def SendsPrecedeWrites (t : List Effect) : Prop :=
  ∀ i j, i < t.length → j < t.length →
    (t.getD i (Effect.send 0)).isWrite = true →
    (t.getD j (Effect.send 0)).isSend = true → j < i

/-! ## General list helpers -/

theorem getD_lt_of_forall {l : List Nat} {b : Nat} (hb : 0 < b)
    (h : ∀ x ∈ l, x < b) : ∀ i, l.getD i 0 < b := by
  intro i
  induction l generalizing i with
  | nil => simpa [List.getD] using hb
  | cons a t ih =>
    cases i with
    | zero => exact h a (by simp)
    | succ n => simpa using ih (fun x hx => h x (by simp [hx])) n

theorem getD_set_self : ∀ (l : List Nat) (p v : Nat), p < l.length →
    (l.set p v).getD p 0 = v := by
  intro l
  induction l with
  | nil => intro p v h; simp at h
  | cons a t ih =>
    intro p v h
    cases p with
    | zero => simp
    | succ n => simpa using ih n v (by simpa using h)

theorem getD_set_ne : ∀ (l : List Nat) (p i v : Nat), p ≠ i →
    (l.set p v).getD i 0 = l.getD i 0 := by
  intro l
  induction l with
  | nil => intro p i v _; simp
  | cons a t ih =>
    intro p i v h
    cases p with
    | zero =>
      cases i with
      | zero => exact absurd rfl h
      | succ m => simp
    | succ n =>
      cases i with
      | zero => simp
      | succ m => simpa using ih n m v (by omega)

theorem getD_set_or (l : List Nat) (p v i : Nat) :
    (l.set p v).getD i 0 = l.getD i 0 ∨ (l.set p v).getD i 0 = v := by
  by_cases h : p = i
  · subst h
    by_cases hp : p < l.length
    · right; exact getD_set_self l p v hp
    · left; rw [List.set_eq_of_length_le (by omega)]
  · left; exact getD_set_ne l p i v h

theorem getD_replicate_zero (n i : Nat) : (List.replicate n (0 : Nat)).getD i 0 = 0 := by
  induction n generalizing i with
  | zero => simp
  | succ m ih =>
    cases i with
    | zero => simp [List.replicate]
    | succ j => simp [List.replicate, ih]

/-! ## Cipher Engine: the round-trip property (claim C5) -/

theorem feistel_lt (k : BFKey) (x : Nat) : blowfish_feistel k x < 65536 :=
  Nat.mod_lt _ (by norm_num)

theorem xor_lt_65536 {a b : Nat} (ha : a < 65536) (hb : b < 65536) :
    a ^^^ b < 65536 := by
  have h : a ^^^ b < 2 ^ 16 := Nat.xor_lt_two_pow ha hb
  exact h

theorem and_FFFF (x : Nat) : x &&& 0xFFFF = x % 65536 := by
  have h := Nat.and_pow_two_sub_one_eq_mod x 16
  norm_num at h
  exact h

theorem BIT16_LO_eq (x : Nat) : BIT16_LO x = x % 65536 := by
  simp [BIT16_LO, and_FFFF]

theorem BIT16_HI_eq (x : Nat) : BIT16_HI x = x / 65536 % 65536 := by
  have h : x >>> 16 = x / 65536 := by
    rw [Nat.shiftRight_eq_div_pow]
  simp [BIT16_HI, and_FFFF, h]

theorem BIT16_LO_lt (x : Nat) : BIT16_LO x < 65536 := by
  rw [BIT16_LO_eq]; exact Nat.mod_lt _ (by norm_num)

theorem BIT16_HI_lt (x : Nat) : BIT16_HI x < 65536 := by
  rw [BIT16_HI_eq]; exact Nat.mod_lt _ (by norm_num)

theorem combine_eq_add (a b : Nat) (hb : b < 65536) :
    (a <<< 16) ||| b = 65536 * a + b := by
  have h1 : a <<< 16 = a * 2 ^ 16 := Nat.shiftLeft_eq a 16
  have h2 : 2 ^ 16 * a + b = 2 ^ 16 * a ||| b := Nat.mul_add_lt_is_or hb a
  rw [h1, Nat.mul_comm a (2 ^ 16), ← h2]
  norm_num

theorem hi_of_combine (a b : Nat) (ha : a < 65536) (hb : b < 65536) :
    BIT16_HI ((a <<< 16) ||| b) = a := by
  rw [combine_eq_add a b hb, BIT16_HI_eq]
  omega

theorem lo_of_combine (a b : Nat) (hb : b < 65536) :
    BIT16_LO ((a <<< 16) ||| b) = b := by
  rw [combine_eq_add a b hb, BIT16_LO_eq]
  omega

theorem enc_foldl_bound (k : BFKey) (hp : ∀ i, k.p.getD i 0 < 65536) (l : List Nat) :
    ∀ hl : Nat × Nat, hl.1 < 65536 → hl.2 < 65536 →
      ((l.foldl (fun a i => encRound k i a) hl).1 < 65536 ∧
       (l.foldl (fun a i => encRound k i a) hl).2 < 65536) := by
  induction l with
  | nil => intro hl h1 h2; exact ⟨h1, h2⟩
  | cons a t ih =>
    intro hl h1 h2
    simp only [List.foldl_cons]
    exact ih (encRound k a hl) (xor_lt_65536 h2 (feistel_lt k _)) (xor_lt_65536 h1 (hp a))

theorem decRound_encRound (k : BFKey) (i : Nat) (hl : Nat × Nat) :
    decRound k i (encRound k i hl) = hl := by
  simp [decRound, encRound, Nat.xor_cancel_right]

theorem dec_enc_foldl (k : BFKey) (l : List Nat) :
    ∀ hl : Nat × Nat,
      l.reverse.foldl (fun a i => decRound k i a)
        (l.foldl (fun a i => encRound k i a) hl) = hl := by
  induction l with
  | nil => intro hl; simp
  | cons a t ih =>
    intro hl
    simp only [List.reverse_cons, List.foldl_append, List.foldl_cons, List.foldl_nil]
    rw [ih (encRound k a hl), decRound_encRound]

/-- C5: for every 32-bit block `x` and every loaded key (P of 18 words,
S1 … S4 of 16 words each, all 16-bit), `blowfish_decrypt` inverts
`blowfish_encrypt`: `blowfish_decrypt(blowfish_encrypt(x)) = x`. -/
theorem blowfish_roundtrip (k : BFKey) (hk : KeyWF k) (x : Nat) (hx : x < 2 ^ 32) :
    blowfish_decrypt k (blowfish_encrypt k x) = x := by
  obtain ⟨-, -, -, -, -, hpb, -, -, -, -⟩ := hk
  have hp : ∀ i, k.p.getD i 0 < 65536 := getD_lt_of_forall (by norm_num) hpb
  obtain ⟨hE1, hE2⟩ := enc_foldl_bound k hp (List.range 16)
    (BIT16_HI x, BIT16_LO x) (BIT16_HI_lt x) (BIT16_LO_lt x)
  simp only [blowfish_encrypt, blowfish_decrypt]
  rw [hi_of_combine _ _ (xor_lt_65536 hE2 (hp 16)) (xor_lt_65536 hE1 (hp 17)),
      lo_of_combine _ _ (xor_lt_65536 hE1 (hp 17)),
      Nat.xor_cancel_right, Nat.xor_cancel_right]
  rw [dec_enc_foldl k (List.range 16) (BIT16_HI x, BIT16_LO x)]
  show (BIT16_HI x <<< 16) ||| BIT16_LO x = x
  rw [combine_eq_add _ _ (BIT16_LO_lt x), BIT16_HI_eq, BIT16_LO_eq]
  have hx2 : x < 4294967296 := hx
  omega

/-- Witness for C5: the round trip evaluated on the π-digit key tables of
`key_gen.c` at block `0x12345678`. -/
theorem blowfish_roundtrip_witness :
    KeyWF key_pi ∧ (0x12345678 : Nat) < 2 ^ 32 ∧
    blowfish_decrypt key_pi (blowfish_encrypt key_pi 0x12345678) = 0x12345678 :=
  ⟨by decide, by norm_num,
   blowfish_roundtrip key_pi (by decide) 0x12345678 (by norm_num)⟩

/-- C9: the key generator's private copies of the cipher
(`blowfish_encrypt` and `blowfish_feistel` in `key_gen.c`, operating on
the global `arr_p`/`arr_s1` … `arr_s4`) compute the same functions as
the shared library's `blowfish_encrypt`/`blowfish_feistel` of
`blowfish.h` whenever the library is loaded (via `blowfish_setkeys`)
with tables equal to the generator's arrays. -/
theorem keygen_cipher_refines (st : KeyGen.KGState) (x : Nat) :
    KeyGen.blowfish_encrypt st x = blowfish_encrypt (KeyGen.toKey st) x ∧
    KeyGen.blowfish_feistel st x = blowfish_feistel (KeyGen.toKey st) x :=
  ⟨rfl, rfl⟩

/-! ## Key schedule: the two-phase loops equal the uniform 41-encryption
fill (claim C6) -/

namespace KeyGen

theorem schedWrite_p (st : KGState) (j hi lo : Nat) (hj : j < 9) :
    schedWrite st j hi lo
      = { st with arr_p := (st.arr_p.set (2 * j) hi).set (2 * j + 1) lo } := by
  simp [schedWrite, hj]

theorem schedWrite_s1 (st : KGState) (i hi lo : Nat) (h : i < 8) :
    schedWrite st (9 + i) hi lo
      = { st with arr_s1 := (st.arr_s1.set (2 * i) hi).set (2 * i + 1) lo } := by
  have h1 : ¬ 9 + i < 9 := by omega
  have h2 : 9 + i < 17 := by omega
  have g1 : 2 * (9 + i) - 18 = 2 * i := by omega
  have g2 : 2 * (9 + i) - 17 = 2 * i + 1 := by omega
  simp [schedWrite, h1, h2, g1, g2]

theorem schedWrite_s2 (st : KGState) (i hi lo : Nat) (h : i < 8) :
    schedWrite st (17 + i) hi lo
      = { st with arr_s2 := (st.arr_s2.set (2 * i) hi).set (2 * i + 1) lo } := by
  have h1 : ¬ 17 + i < 9 := by omega
  have h2 : ¬ 17 + i < 17 := by omega
  have h3 : 17 + i < 25 := by omega
  have g1 : 2 * (17 + i) - 34 = 2 * i := by omega
  have g2 : 2 * (17 + i) - 33 = 2 * i + 1 := by omega
  simp [schedWrite, h1, h2, h3, g1, g2]

theorem schedWrite_s3 (st : KGState) (i hi lo : Nat) (h : i < 8) :
    schedWrite st (25 + i) hi lo
      = { st with arr_s3 := (st.arr_s3.set (2 * i) hi).set (2 * i + 1) lo } := by
  have h1 : ¬ 25 + i < 9 := by omega
  have h2 : ¬ 25 + i < 17 := by omega
  have h3 : ¬ 25 + i < 25 := by omega
  have h4 : 25 + i < 33 := by omega
  have g1 : 2 * (25 + i) - 50 = 2 * i := by omega
  have g2 : 2 * (25 + i) - 49 = 2 * i + 1 := by omega
  simp [schedWrite, h1, h2, h3, h4, g1, g2]

theorem schedWrite_s4 (st : KGState) (i hi lo : Nat) (h : i < 8) :
    schedWrite st (33 + i) hi lo
      = { st with arr_s4 := (st.arr_s4.set (2 * i) hi).set (2 * i + 1) lo } := by
  have h1 : ¬ 33 + i < 9 := by omega
  have h2 : ¬ 33 + i < 17 := by omega
  have h3 : ¬ 33 + i < 25 := by omega
  have h4 : ¬ 33 + i < 33 := by omega
  have g1 : 2 * (33 + i) - 66 = 2 * i := by omega
  have g2 : 2 * (33 + i) - 65 = 2 * i + 1 := by omega
  simp [schedWrite, h1, h2, h3, h4, g1, g2]

theorem fold_corr (f : KGState × Nat × Nat → Nat → KGState × Nat × Nat)
    (g : KGState × Nat → Nat → KGState × Nat) (L : List Nat)
    (hstep : ∀ a b j, j ∈ L → a.1 = b.1 → a.2.1 = b.2 →
      (f a j).1 = (g b j).1 ∧ (f a j).2.1 = (g b j).2) :
    ∀ a b, a.1 = b.1 → a.2.1 = b.2 →
      (L.foldl f a).1 = (L.foldl g b).1 ∧ (L.foldl f a).2.1 = (L.foldl g b).2 := by
  induction L with
  | nil => intro a b h1 h2; exact ⟨h1, h2⟩
  | cons x t ih =>
    intro a b h1 h2
    simp only [List.foldl_cons]
    obtain ⟨k1, k2⟩ := hstep a b x (by simp) h1 h2
    exact ih (fun a b j hj => hstep a b j (by simp [hj])) (f a x) (g b x) k1 k2

theorem fold_count (f : KGState × Nat × Nat → Nat → KGState × Nat × Nat)
    (hf : ∀ a j, (f a j).2.2 = a.2.2 + 1) :
    ∀ (L : List Nat) (a : KGState × Nat × Nat),
      (L.foldl f a).2.2 = a.2.2 + L.length := by
  intro L
  induction L with
  | nil => intro a; simp
  | cons x t ih =>
    intro a
    simp only [List.foldl_cons, List.length_cons]
    rw [ih, hf]
    omega

theorem stepP_corr (a : KGState × Nat × Nat) (b : KGState × Nat) (j : Nat) (hj : j < 9)
    (h1 : a.1 = b.1) (h2 : a.2.1 = b.2) :
    (stepP a (2 * j)).1 = (schedStep b j).1 ∧ (stepP a (2 * j)).2.1 = (schedStep b j).2 := by
  obtain ⟨ast, ab, ac⟩ := a
  obtain ⟨bst, bb⟩ := b
  simp only at h1 h2
  subst h1 h2
  refine ⟨?_, rfl⟩
  simp only [stepP, schedStep]
  rw [schedWrite_p _ _ _ _ hj]

theorem stepS0_corr (a : KGState × Nat × Nat) (b : KGState × Nat) (i : Nat) (h : i < 8)
    (h1 : a.1 = b.1) (h2 : a.2.1 = b.2) :
    (stepS 0 a (2 * i)).1 = (schedStep b (9 + i)).1 ∧
    (stepS 0 a (2 * i)).2.1 = (schedStep b (9 + i)).2 := by
  obtain ⟨ast, ab, ac⟩ := a
  obtain ⟨bst, bb⟩ := b
  simp only at h1 h2
  subst h1 h2
  refine ⟨?_, rfl⟩
  simp only [stepS, schedStep, setArrS]
  rw [schedWrite_s1 _ _ _ _ h]

theorem stepS1_corr (a : KGState × Nat × Nat) (b : KGState × Nat) (i : Nat) (h : i < 8)
    (h1 : a.1 = b.1) (h2 : a.2.1 = b.2) :
    (stepS 1 a (2 * i)).1 = (schedStep b (17 + i)).1 ∧
    (stepS 1 a (2 * i)).2.1 = (schedStep b (17 + i)).2 := by
  obtain ⟨ast, ab, ac⟩ := a
  obtain ⟨bst, bb⟩ := b
  simp only at h1 h2
  subst h1 h2
  refine ⟨?_, rfl⟩
  simp only [stepS, schedStep, setArrS]
  rw [schedWrite_s2 _ _ _ _ h]

theorem stepS2_corr (a : KGState × Nat × Nat) (b : KGState × Nat) (i : Nat) (h : i < 8)
    (h1 : a.1 = b.1) (h2 : a.2.1 = b.2) :
    (stepS 2 a (2 * i)).1 = (schedStep b (25 + i)).1 ∧
    (stepS 2 a (2 * i)).2.1 = (schedStep b (25 + i)).2 := by
  obtain ⟨ast, ab, ac⟩ := a
  obtain ⟨bst, bb⟩ := b
  simp only at h1 h2
  subst h1 h2
  refine ⟨?_, rfl⟩
  simp only [stepS, schedStep, setArrS]
  rw [schedWrite_s3 _ _ _ _ h]

theorem stepS3_corr (a : KGState × Nat × Nat) (b : KGState × Nat) (i : Nat) (h : i < 8)
    (h1 : a.1 = b.1) (h2 : a.2.1 = b.2) :
    (stepS 3 a (2 * i)).1 = (schedStep b (33 + i)).1 ∧
    (stepS 3 a (2 * i)).2.1 = (schedStep b (33 + i)).2 := by
  obtain ⟨ast, ab, ac⟩ := a
  obtain ⟨bst, bb⟩ := b
  simp only at h1 h2
  subst h1 h2
  refine ⟨?_, rfl⟩
  simp only [stepS, schedStep, setArrS]
  rw [schedWrite_s4 _ _ _ _ h]

/-- C6 (amended): after XORing the seed into the 18-word P table, the
key-schedule derivation performs exactly 41 (not 37) encryptions of a
feedback block starting at zero, each yielding two 16-bit subkey words
(high half then low half) consumed in order to fill P (18 words), then
S1, S2, S3, S4 (16 words each), each ciphertext fed back as the next
plaintext — i.e. `blowfish_keygen` equals the uniform sequential fill
`keygenSchedule` and its encryption count is 41. -/
theorem keygen_schedule_correct (key : List Nat) (st0 : KGState) :
    blowfish_keygen key st0 = (keygenSchedule key st0, 41) := by
  have hsplit : List.range 41
      = List.range 9 ++ ((List.range 8).map (fun i => 9 + i)
        ++ ((List.range 8).map (fun i => 17 + i)
        ++ ((List.range 8).map (fun i => 25 + i)
        ++ (List.range 8).map (fun i => 33 + i)))) := by rfl
  have e3 : List.range 4 = [0, 1, 2, 3] := rfl
  simp only [blowfish_keygen, keygenSchedule, hsplit, e3,
    List.foldl_append, List.foldl_map, List.foldl_cons, List.foldl_nil]
  set st1 : KGState :=
    { st0 with arr_p := (List.range 18).map (fun i => st0.arr_p.getD i 0 ^^^ key.getD i 0) }
    with hst1
  have c0 := fold_corr (fun a j => stepP a (2 * j)) schedStep (List.range 9)
    (fun a b j hj h1 h2 => stepP_corr a b j (List.mem_range.mp hj) h1 h2)
    (st1, 0, 0) (st1, 0) rfl rfl
  have c1 := fold_corr (fun a i => stepS 0 a (2 * i)) (fun b i => schedStep b (9 + i))
    (List.range 8)
    (fun a b i hi h1 h2 => stepS0_corr a b i (List.mem_range.mp hi) h1 h2)
    _ _ c0.1 c0.2
  have c2 := fold_corr (fun a i => stepS 1 a (2 * i)) (fun b i => schedStep b (17 + i))
    (List.range 8)
    (fun a b i hi h1 h2 => stepS1_corr a b i (List.mem_range.mp hi) h1 h2)
    _ _ c1.1 c1.2
  have c3 := fold_corr (fun a i => stepS 2 a (2 * i)) (fun b i => schedStep b (25 + i))
    (List.range 8)
    (fun a b i hi h1 h2 => stepS2_corr a b i (List.mem_range.mp hi) h1 h2)
    _ _ c2.1 c2.2
  have c4 := fold_corr (fun a i => stepS 3 a (2 * i)) (fun b i => schedStep b (33 + i))
    (List.range 8)
    (fun a b i hi h1 h2 => stepS3_corr a b i (List.mem_range.mp hi) h1 h2)
    _ _ c3.1 c3.2
  have n0 := fold_count (fun a j => stepP a (2 * j)) (fun a j => rfl) (List.range 9)
    (st1, 0, 0)
  have n1 := fold_count (fun a i => stepS 0 a (2 * i)) (fun a i => rfl) (List.range 8)
    (List.foldl (fun a j => stepP a (2 * j)) (st1, 0, 0) (List.range 9))
  have n2 := fold_count (fun a i => stepS 1 a (2 * i)) (fun a i => rfl) (List.range 8)
    (List.foldl (fun a i => stepS 0 a (2 * i))
      (List.foldl (fun a j => stepP a (2 * j)) (st1, 0, 0) (List.range 9)) (List.range 8))
  have n3 := fold_count (fun a i => stepS 2 a (2 * i)) (fun a i => rfl) (List.range 8)
    (List.foldl (fun a i => stepS 1 a (2 * i))
      (List.foldl (fun a i => stepS 0 a (2 * i))
        (List.foldl (fun a j => stepP a (2 * j)) (st1, 0, 0) (List.range 9)) (List.range 8))
      (List.range 8))
  have n4 := fold_count (fun a i => stepS 3 a (2 * i)) (fun a i => rfl) (List.range 8)
    (List.foldl (fun a i => stepS 2 a (2 * i))
      (List.foldl (fun a i => stepS 1 a (2 * i))
        (List.foldl (fun a i => stepS 0 a (2 * i))
          (List.foldl (fun a j => stepP a (2 * j)) (st1, 0, 0) (List.range 9)) (List.range 8))
        (List.range 8))
      (List.range 8))
  rw [Prod.mk.injEq]
  refine ⟨c4.1, ?_⟩
  rw [n4, n3, n2, n1, n0]
  rfl

end KeyGen

set_option maxRecDepth 40000 in
/-- Counterexample for C6 as frozen: with the zero seed and the π-digit
initial tables, the key-schedule derivation performs 41 encryptions of
the feedback block, not 37 as the claim states. -/
theorem keygen_count_not_37 :
    (KeyGen.blowfish_keygen (List.replicate 18 0) st_pi).2 ≠ 37 := by decide

/-! ## Seed ingestion (claim C7) -/

theorem xorSum_cons (a : Nat) (l : List Nat) : xorSum (a :: l) = a ^^^ xorSum l := rfl

theorem get_input_step_length (d : List Nat) (clen : Nat) (buf : List Nat) (idx : Nat) :
    (KeyGen.get_input_step d clen buf idx).length = buf.length := by
  simp [KeyGen.get_input_step]

theorem foldl_step_length (d : List Nat) (clen : Nat) (L : List Nat) :
    ∀ buf : List Nat, (L.foldl (KeyGen.get_input_step d clen) buf).length = buf.length := by
  induction L with
  | nil => intro buf; rfl
  | cons a t ih =>
    intro buf
    rw [List.foldl_cons, ih, get_input_step_length]

theorem get_input_foldl_char (d : List Nat) (clen : Nat) (L : List Nat) :
    ∀ (buf : List Nat), buf.length = 36 → ∀ j, j < 36 →
    (L.foldl (KeyGen.get_input_step d clen) buf).getD j 0
      = buf.getD j 0 ^^^
        xorSum ((L.filter (fun i => i / 2 % 36 = j)).map (KeyGen.contrib d clen)) := by
  induction L with
  | nil => intro buf _ j _; simp [xorSum]
  | cons a t ih =>
    intro buf hbuf j hj
    rw [List.foldl_cons]
    have hlen : (KeyGen.get_input_step d clen buf a).length = 36 := by
      rw [get_input_step_length, hbuf]
    rw [ih _ hlen j hj]
    by_cases hcase : a / 2 % 36 = j
    · rw [List.filter_cons_of_pos (by simpa using hcase), List.map_cons, xorSum_cons]
      have hstep : (KeyGen.get_input_step d clen buf a).getD j 0
          = buf.getD j 0 ^^^ KeyGen.contrib d clen a := by
        rw [KeyGen.get_input_step, KeyGen.contrib, ← hcase]
        exact getD_set_self buf _ _ (by rw [hbuf]; omega)
      rw [hstep, Nat.xor_assoc]
    · rw [List.filter_cons_of_neg (by simpa using hcase)]
      have hstep : (KeyGen.get_input_step d clen buf a).getD j 0 = buf.getD j 0 := by
        rw [KeyGen.get_input_step]
        exact getD_set_ne buf _ _ _ hcase
      rw [hstep]

/-- C7 (amended): seed ingestion packs hex digits into the 36-byte
(72 hex-digit-slot) key-material buffer `arr_key`, not a 72-byte one:
the parse loop runs over `max clen 72` digit indices, re-reading the
seed cyclically through `i % clen` (so a short seed repeats to fill the
buffer), and XORs digit `i` into byte `(i / 2) % 36` — digit slot
`i % 72` — shifted by 4 for even `i` and 0 for odd `i` (so the excess
digits of a long seed fold in round-robin).  Stated as: every byte `j`
of the produced buffer is the XOR of the shifted digits at exactly the
loop indices `i` with `i / 2 % 36 = j`. -/
theorem get_input_spec (d : List Nat) (j : Nat) (hj : j < 36) :
    (KeyGen.get_input d).length = 36 ∧
    (KeyGen.get_input d).getD j 0
      = xorSum (((List.range (max d.length 72)).filter (fun i => i / 2 % 36 = j)).map
          (KeyGen.contrib d d.length)) := by
  constructor
  · rw [KeyGen.get_input, foldl_step_length]
    simp
  · rw [KeyGen.get_input,
        get_input_foldl_char d d.length (List.range (max d.length 72))
          (List.replicate 36 0) (by simp) j hj,
        getD_replicate_zero]
    simp

/-- Witness for C7: the characterization evaluated for the two-digit
seed `[1, 2]` at buffer byte 0. -/
theorem get_input_spec_witness :
    (0 : Nat) < 36 ∧
    ((KeyGen.get_input [1, 2]).length = 36 ∧
     (KeyGen.get_input [1, 2]).getD 0 0
       = xorSum (((List.range (max ([1, 2] : List Nat).length 72)).filter
            (fun i => i / 2 % 36 = 0)).map (KeyGen.contrib [1, 2] ([1, 2] : List Nat).length))) :=
  ⟨by norm_num, get_input_spec [1, 2] 0 (by norm_num)⟩

set_option maxRecDepth 40000 in
/-- Counterexample for C7 as frozen: the key-material buffer holds 36
bytes, not 72; and for a 74-digit seed whose digit 73 is `0xF`, that
excess digit is XORed into byte 0 (digit slot `73 % 72 = 1`, i.e. the
low nibble of byte 0), leaving byte `73 % 72 = 1` untouched — the
byte-indexed round-robin the claim describes does not hold. -/
theorem get_input_not_72_bytes :
    (KeyGen.get_input [5]).length = 36 ∧
    KeyGen.get_input (List.replicate 73 0 ++ [15]) = 15 :: List.replicate 35 0 ∧
    (KeyGen.get_input (List.replicate 73 0 ++ [15])).getD (73 % 72) 0 = 0 := by
  refine ⟨by decide, by decide, by decide⟩

/-! ## Rolling-code acceptance (claim C4) -/

theorem process_load_accept (s : Store) (code chan : Nat)
    (h1 : read_channel_state s chan = 0xFF)
    (h2 : (code + 2 ^ 32 - read_channel_code s chan) % 2 ^ 32 < ROLLING_WINDOW) :
    process_load s code chan = (write_channel_code s chan ((code + 1) % 2 ^ 32), true) := by
  have hw : ROLLING_WINDOW = 1024 := rfl
  have h2n : ¬ (1024 ≤ (code + 4294967296 - read_channel_code s chan) % 4294967296) := by
    rw [hw] at h2
    norm_num at h2
    omega
  unfold process_load
  rw [h1]
  simp [ROLLING_WINDOW, h2n]

theorem process_load_reject (s : Store) (code chan : Nat)
    (h : ¬ (read_channel_state s chan = 0xFF ∧
        (code + 2 ^ 32 - read_channel_code s chan) % 2 ^ 32 < ROLLING_WINDOW)) :
    process_load s code chan = (s, false) := by
  unfold process_load
  by_cases h1 : read_channel_state s chan = 0xFF
  · have h2 : ¬ (code + 2 ^ 32 - read_channel_code s chan) % 2 ^ 32 < ROLLING_WINDOW :=
      fun hh => h ⟨h1, hh⟩
    have hw : ROLLING_WINDOW = 1024 := rfl
    have h2n : 1024 ≤ (code + 4294967296 - read_channel_code s chan) % 4294967296 := by
      rw [hw] at h2
      norm_num at h2
      omega
    rw [h1]
    simp [ROLLING_WINDOW, h2n]
  · simp [h1]

theorem int_window_iff (code b : Nat) (hc : code < 2 ^ 32) (hb : b < 2 ^ 32) :
    (((code : ℤ) - (b : ℤ)) % 2 ^ 32 < (ROLLING_WINDOW : ℤ))
      ↔ ((code + 2 ^ 32 - b) % 2 ^ 32 < ROLLING_WINDOW) := by
  have e : (ROLLING_WINDOW : ℤ) = 1024 := rfl
  have e2 : ROLLING_WINDOW = 1024 := rfl
  rw [e, e2]
  omega

/-- C4: a Normal command is accepted iff the stored enrollment flag
equals `0xFF` and `(code - last_code) mod 2^32 < ROLLING_WINDOW`
(= 1024); on acceptance the stored code becomes `code + 1` (as a 32-bit
value) and on rejection the store is unchanged. -/
theorem process_load_spec (s : Store) (code chan : Nat)
    (hc : code < 2 ^ 32) (hl : read_channel_code s chan < 2 ^ 32) :
    ((process_load s code chan).2 = true ↔
      (read_channel_state s chan = 0xFF ∧
       ((code : ℤ) - (read_channel_code s chan : ℤ)) % 2 ^ 32 < (ROLLING_WINDOW : ℤ))) ∧
    ((process_load s code chan).2 = true →
      (process_load s code chan).1 = write_channel_code s chan ((code + 1) % 2 ^ 32)) ∧
    ((process_load s code chan).2 = false → (process_load s code chan).1 = s) := by
  have key := int_window_iff code (read_channel_code s chan) hc hl
  by_cases hcond : read_channel_state s chan = 0xFF ∧
      (code + 2 ^ 32 - read_channel_code s chan) % 2 ^ 32 < ROLLING_WINDOW
  · rw [process_load_accept s code chan hcond.1 hcond.2]
    exact ⟨⟨fun _ => ⟨hcond.1, key.mpr hcond.2⟩, fun _ => rfl⟩,
      fun _ => rfl, fun hf => Bool.noConfusion hf⟩
  · rw [process_load_reject s code chan hcond]
    exact ⟨⟨fun ht => Bool.noConfusion ht,
        fun hcc => absurd ⟨hcc.1, key.mp hcc.2⟩ hcond⟩,
      fun ht => Bool.noConfusion ht, fun _ => rfl⟩

/-- Witness for C4: the acceptance rule evaluated on the demo store
(all channels enrolled, stored codes 0) with `code = 5`, `chan = 0`. -/
theorem process_load_spec_witness :
    (5 : Nat) < 2 ^ 32 ∧ read_channel_code demoStore 0 < 2 ^ 32 ∧
    (((process_load demoStore 5 0).2 = true ↔
      (read_channel_state demoStore 0 = 0xFF ∧
       ((5 : ℤ) - (read_channel_code demoStore 0 : ℤ)) % 2 ^ 32 < (ROLLING_WINDOW : ℤ))) ∧
     ((process_load demoStore 5 0).2 = true →
      (process_load demoStore 5 0).1 = write_channel_code demoStore 0 ((5 + 1) % 2 ^ 32)) ∧
     ((process_load demoStore 5 0).2 = false → (process_load demoStore 5 0).1 = demoStore)) :=
  ⟨by norm_num, by decide, process_load_spec demoStore 5 0 (by norm_num) (by decide)⟩

/-! ## Reset command (claims C3, C8, C10) -/

/-- C3 (code_bug evidence): `process_reset` performs its `0x00`
channel-state writes exactly when the abort condition held during the
countdown, and leaves the store untouched when the operator holds the
trigger through the whole countdown — the inverse of the claimed (and
displayed) behaviour.  With the trigger held (`pins` never released)
the enrolled demo store is unchanged; with the trigger released at every
sample the targeted channel is cleared. -/
theorem process_reset_inverted :
    process_reset 2 (fun _ => false) demoStore = demoStore ∧
    process_reset 2 (fun _ => true) demoStore = write_channel_state demoStore 2 0x00 := by
  constructor <;> rfl

/-- C8: if the abort-confirm condition (both command pins released)
never holds at any of the six sample points of the countdown,
`process_reset` — for a single channel or for all — leaves every
channel's stored state (enrollment flags and rolling codes) unchanged. -/
theorem process_reset_no_abort (chan : Int) (pins : Nat → Bool) (s : Store)
    (h : ∀ k, k < 6 → pins k = false) : process_reset chan pins s = s := by
  have e : abort_countdown pins = false := by
    have h0 := h 0 (by norm_num)
    have h1 := h 1 (by norm_num)
    have h2 := h 2 (by norm_num)
    have h3 := h 3 (by norm_num)
    have h4 := h 4 (by norm_num)
    have h5 := h 5 (by norm_num)
    have er : List.range 6 = [0, 1, 2, 3, 4, 5] := rfl
    rw [abort_countdown, er]
    simp [h0, h1, h2, h3, h4, h5]
  simp [process_reset, e]

/-- Witness for C8: a `ResetChannel(0)` invocation whose pins are never
released leaves the demo store unchanged. -/
theorem process_reset_no_abort_witness :
    (∀ k, k < 6 → (fun (_ : Nat) => false) k = false) ∧
    process_reset 0 (fun _ => false) demoStore = demoStore :=
  ⟨fun _ _ => rfl, process_reset_no_abort 0 (fun _ => false) demoStore (fun _ _ => rfl)⟩

theorem reset_all_codes (L : List Nat) :
    ∀ s : Store, (L.foldl (fun acc idx => write_channel_state acc idx 0x00) s).codes = s.codes := by
  induction L with
  | nil => intro s; rfl
  | cons a t ih =>
    intro s
    rw [List.foldl_cons, ih]
    rfl

theorem reset_all_states (L : List Nat) :
    ∀ (s : Store) (i : Nat),
      (L.foldl (fun acc idx => write_channel_state acc idx 0x00) s).states.getD i 0
          = s.states.getD i 0 ∨
      (L.foldl (fun acc idx => write_channel_state acc idx 0x00) s).states.getD i 0 = 0 := by
  induction L with
  | nil => intro s i; left; rfl
  | cons a t ih =>
    intro s i
    rw [List.foldl_cons]
    rcases ih (write_channel_state s a 0x00) i with h | h
    · rw [h]
      exact getD_set_or s.states a 0 i
    · right; exact h

/-- C10: every `process_reset` invocation — aborted or not, single
channel or all — leaves the stored rolling codes of all channels
unchanged, and any channel-state byte it does touch is written with
`0x00` (via `write_channel_state`). -/
theorem process_reset_frame (chan : Int) (pins : Nat → Bool) (s : Store) :
    (process_reset chan pins s).codes = s.codes ∧
    ∀ i, (process_reset chan pins s).states.getD i 0 = s.states.getD i 0 ∨
         (process_reset chan pins s).states.getD i 0 = 0x00 := by
  by_cases hab : abort_countdown pins = true
  · by_cases hc : chan ≥ 0
    · have e : process_reset chan pins s = write_channel_state s chan.toNat 0x00 := by
        simp [process_reset, hab, hc]
      rw [e]
      exact ⟨rfl, fun i => getD_set_or s.states chan.toNat 0 i⟩
    · have e : process_reset chan pins s
          = (List.range 16).foldl (fun acc idx => write_channel_state acc idx 0x00) s := by
        simp [process_reset, hab, hc]
      rw [e]
      exact ⟨reset_all_codes _ s, fun i => reset_all_states _ s i⟩
  · have e : process_reset chan pins s = s := by
      have hf : abort_countdown pins = false := by
        cases hx : abort_countdown pins
        · rfl
        · exact absurd hx hab
      simp [process_reset, hf]
    rw [e]
    exact ⟨rfl, fun i => Or.inl rfl⟩

/-! ## Transmitter frame layout (claim C1) -/

set_option maxRecDepth 40000 in
/-- C1 (code_bug evidence): assembling a message with the π-digit key
tables, rolling code 0 and garbage byte 7 in the never-written cell 4,
the transmitter performs its stores at indices `[5, 0, 1, 2, 3, 6]` —
the channel number at byte 5 instead of byte 4, the checksum at byte 6,
one past the declared 6-byte buffer, and no store at byte 4 at all.
Decoding the resulting 6-byte frame the way the receiver does, the
channel read from byte 4 is the garbage value 7 (not `CHAN_NUM = 0`),
and the checksum comparison at byte 5 fails. -/
theorem transmit_layout_bug :
    (transmit_assemble key_pi 0 7 16).map
      (fun r => (r.2.writes.map Prod.fst, r.2.cells, receiver_chan r.2.cells,
                 receiver_checksum_ok (r.2.cells.take 6)))
      = some ([5, 0, 1, 2, 3, 6], [21, 82, 27, 177, 7, 0, 208], 7, false) := by decide

/-! ## Transmitter effect ordering (claim C2) -/

set_option maxRecDepth 40000 in
/-- Counterexample for C2 as frozen: in the effect trace of a concrete
trigger event (π-digit key, rolling code 0, garbage byte 7) it is NOT
the case that every EEPROM write of the new code precedes every radio
send — the burst transmission happens first. -/
theorem trigger_write_order_counterexample :
    (trigger_event key_pi 0 7 16).map (fun res => writesPrecedeSendsB res.1) = some false := by
  decide

theorem isSend_not_isWrite (e : Effect) (h : e.isSend = true) : e.isWrite = false := by
  cases e with
  | send b => rfl
  | eepromWrite a v => cases h

theorem burst_all_sends (cells : List Nat) : ∀ n, ∀ e ∈ burst cells n, e.isSend = true := by
  intro n
  induction n with
  | zero => intro e he; cases he
  | succ m ih =>
    intro e he
    rw [burst] at he
    rcases List.mem_append.mp he with h | h
    · rcases List.mem_cons.mp h with rfl | h2
      · rfl
      · obtain ⟨i, -, rfl⟩ := List.mem_map.mp h2
        rfl
    · exact ih e h

theorem write_trace_all_writes (code : Nat) :
    ∀ e ∈ write_code_trace code, e.isWrite = true := by
  intro e he
  obtain ⟨i, -, rfl⟩ := List.mem_map.mp he
  rfl

theorem getD_append_left {A B : List Effect} {i : Nat} (h : i < A.length) (d : Effect) :
    (A ++ B).getD i d = A.getD i d := by
  induction A generalizing i with
  | nil => simp at h
  | cons a t ih =>
    cases i with
    | zero => rfl
    | succ n => simpa using ih (by simpa using h)

theorem getD_append_right {A B : List Effect} {i : Nat} (h : A.length ≤ i) (d : Effect) :
    (A ++ B).getD i d = B.getD (i - A.length) d := by
  induction A generalizing i with
  | nil => simp
  | cons a t ih =>
    cases i with
    | zero => simp at h
    | succ n => simpa using ih (by simpa using h)

theorem getD_mem {A : List Effect} {i : Nat} (h : i < A.length) (d : Effect) :
    A.getD i d ∈ A := by
  induction A generalizing i with
  | nil => simp at h
  | cons a t ih =>
    cases i with
    | zero => simp
    | succ n => simpa using Or.inr (ih (by simpa using h))

theorem sends_precede_writes_append (A B : List Effect)
    (hA : ∀ e ∈ A, e.isSend = true) (hB : ∀ e ∈ B, e.isWrite = true) :
    SendsPrecedeWrites (A ++ B) := by
  intro i j hi hj hwi hsj
  have hiA : ¬ i < A.length := by
    intro hlt
    rw [getD_append_left hlt] at hwi
    have hsend := hA _ (getD_mem hlt (Effect.send 0))
    have hw := isSend_not_isWrite _ hsend
    rw [hwi] at hw
    cases hw
  have hjA : j < A.length := by
    by_contra hge
    rw [getD_append_right (by omega)] at hsj
    have hjB : j - A.length < B.length := by
      rw [List.length_append] at hj
      omega
    have hw := isSend_not_isWrite _ hsj
    rw [hB _ (getD_mem hjB (Effect.send 0))] at hw
    cases hw
  omega

/-- C2 (amended): on every trigger event of the transmitter's main loop,
the ordering of external effects is the reverse of the claimed one: all
radio sends of the 16-frame burst happen first, and the EEPROM writes
persisting the new rolling code happen only afterwards (every radio send
precedes every EEPROM write in the trace). -/
theorem trigger_sends_then_writes (k : BFKey) (code g fuel : Nat)
    (t : List Effect) (c : Nat)
    (h : trigger_event k code g fuel = some (t, c)) : SendsPrecedeWrites t := by
  rw [trigger_event] at h
  cases ha : transmit_assemble k code g fuel with
  | none => rw [ha] at h; cases h
  | some r =>
    rw [ha] at h
    simp only [Option.some.injEq, Prod.mk.injEq] at h
    obtain ⟨ht, -⟩ := h
    rw [← ht]
    exact sends_precede_writes_append _ _
      (burst_all_sends r.2.cells 16) (write_trace_all_writes r.1)

set_option maxRecDepth 40000 in
/-- Witness for C2 (amended): the concrete trigger event used in the
counterexample produces exactly the burst-then-write trace, and on it
every send precedes every write. -/
theorem trigger_sends_then_writes_witness :
    trigger_event key_pi 0 7 16
        = some (burst [21, 82, 27, 177, 7, 0, 208] 16 ++ write_code_trace 1, 1) ∧
    SendsPrecedeWrites (burst [21, 82, 27, 177, 7, 0, 208] 16 ++ write_code_trace 1) :=
  ⟨by decide, trigger_sends_then_writes key_pi 0 7 16 _ 1 (by decide)⟩

end RKS
